import Mathlib

/-!
Verification development for the dn3 data-organization core
(`dn3/data/dataset.py`).

The Python source is shallowly embedded below.  Machine integers are
modelled as `Nat`/`Int` (Python ints are unbounded, Python `//` is
`Int.fdiv`), Python lists as `List`, `OrderedDict` as association
lists in insertion order, fallible operations as `Except`.

Naming follows the source where Lean allows it: `cumulative_sizes`
and `bisect_right` model `torch.utils.data.ConcatDataset.cumsum`
and `bisect.bisect_right` (the stdlib binary search is modelled
extensionally: on the sorted lists the code applies it to it returns
the number of elements `≤ x`).
-/

namespace DN3

/-- Running totals of a list of child lengths, with accumulator `s`
(the loop of `torch.utils.data.ConcatDataset.cumsum`). -/
def cumsum_aux (s : Nat) : List Nat → List Nat
  | [] => []
  | l :: ls => (s + l) :: cumsum_aux (s + l) ls

/-- Models `ConcatDataset.cumulative_sizes`: inclusive prefix sums of the child lengths. -/
def cumulative_sizes (ls : List Nat) : List Nat :=
  cumsum_aux 0 ls

/-- Models `bisect.bisect_right a x` on a sorted list: number of elements `≤ x`. -/
def bisect_right (a : List Nat) (x : Nat) : Nat :=
  a.countP (fun e => e ≤ x)

/-- The flat-to-nested index resolution idiom shared by
`ConcatDataset.__getitem__`, `Thinker.__getitem__` and
`Dataset.__getitem__`: binary search over the prefix sums, then
subtract the preceding child's cumulative size.  Returns
`(child index, local index)`. -/
def resolve (ls : List Nat) (item : Nat) : Nat × Nat :=
  (bisect_right (cumulative_sizes ls) item,
   if bisect_right (cumulative_sizes ls) item = 0 then item
   else item - (cumulative_sizes ls).getD (bisect_right (cumulative_sizes ls) item - 1) 0)

/-- Sum of the first `j` child lengths: the starting flat offset of child `j`. -/
def offsetSum (ls : List Nat) (j : Nat) : Nat :=
  (ls.take j).sum

theorem cumsum_aux_shift (s : Nat) (ls : List Nat) :
    cumsum_aux s ls = (cumsum_aux 0 ls).map (fun v => s + v) := by
  induction ls generalizing s with
  | nil => rfl
  | cons l ls ih =>
    simp only [cumsum_aux, List.map_cons, Nat.zero_add]
    congr 1
    rw [ih (s + l), ih l, List.map_map]
    apply List.map_congr_left
    intro a _
    simp [Nat.add_assoc]

theorem cumsum_aux_length (s : Nat) (ls : List Nat) :
    (cumsum_aux s ls).length = ls.length := by
  induction ls generalizing s with
  | nil => rfl
  | cons l ls ih => simp [cumsum_aux, ih]

theorem cumsum_aux_getLastD (s : Nat) (ls : List Nat) :
    (cumsum_aux s ls).getLastD s = s + ls.sum := by
  induction ls generalizing s with
  | nil => simp [cumsum_aux]
  | cons l ls ih =>
    simp only [cumsum_aux, List.getLastD_cons, List.sum_cons]
    rw [ih (s + l)]
    omega

/-- The last cumulative size is the total length. -/
theorem cumulative_sizes_getLastD (ls : List Nat) :
    (cumulative_sizes ls).getLastD 0 = ls.sum := by
  simpa using cumsum_aux_getLastD 0 ls

theorem offsetSum_zero (ls : List Nat) : offsetSum ls 0 = 0 := rfl

theorem offsetSum_succ (ls : List Nat) (j : Nat) (h : j < ls.length) :
    offsetSum ls (j + 1) = offsetSum ls j + ls.getD j 0 := by
  induction ls generalizing j with
  | nil => simp at h
  | cons l ls ih =>
    cases j with
    | zero => simp [offsetSum]
    | succ j =>
      simp only [List.length_cons, Nat.add_lt_add_iff_right] at h
      simp only [offsetSum, List.take_succ_cons, List.sum_cons, List.getD_cons_succ]
      have := ih j h
      simp only [offsetSum] at this
      omega

/-- Core property of `bisect_right` over the prefix sums: for a flat
index `i` inside the total, the chosen child `j` is in range and `i`
falls inside child `j`'s half-open offset interval. -/
theorem bisect_cumulative_spec (ls : List Nat) (i : Nat) (h : i < ls.sum) :
    bisect_right (cumulative_sizes ls) i < ls.length ∧
    offsetSum ls (bisect_right (cumulative_sizes ls) i) ≤ i ∧
    i < offsetSum ls (bisect_right (cumulative_sizes ls) i + 1) := by
  induction ls generalizing i with
  | nil => simp at h
  | cons l ls ih =>
    have hcums : cumulative_sizes (l :: ls) =
        l :: (cumulative_sizes ls).map (fun v => l + v) := by
      simp only [cumulative_sizes, cumsum_aux, Nat.zero_add]
      rw [cumsum_aux_shift l ls]
    by_cases hl : i < l
    · have hcount : bisect_right (cumulative_sizes (l :: ls)) i = 0 := by
        rw [hcums]
        simp only [bisect_right, List.countP_cons]
        have h1 : (decide (l ≤ i)) = false := by simp; omega
        rw [List.countP_eq_zero.mpr, h1]
        · simp
        · intro a ha
          rcases List.mem_map.mp ha with ⟨v, _, rfl⟩
          simp
          omega
      rw [hcount]
      refine ⟨by simp, by simp [offsetSum], ?_⟩
      simpa [offsetSum] using hl
    · push_neg at hl
      have hsum : i - l < ls.sum := by
        simp only [List.sum_cons] at h
        omega
      have hcount : bisect_right (cumulative_sizes (l :: ls)) i =
          bisect_right (cumulative_sizes ls) (i - l) + 1 := by
        rw [hcums]
        simp only [bisect_right, List.countP_cons]
        have h1 : (decide (l ≤ i)) = true := by simpa
        rw [h1, List.countP_map]
        have : ∀ v ∈ cumulative_sizes ls,
            (((fun e => decide (e ≤ i)) ∘ (fun v => l + v)) v = true ↔
              (fun v => decide (v ≤ i - l)) v = true) := by
          intro v _
          simp only [Function.comp, decide_eq_true_eq]
          omega
        rw [List.countP_congr this]
        simp
      rw [hcount]
      rcases ih (i - l) hsum with ⟨hj, hlo, hhi⟩
      refine ⟨by simpa using hj, ?_, ?_⟩
      · simp only [offsetSum, List.take_succ_cons, List.sum_cons]
        simp only [offsetSum] at hlo
        omega
      · simp only [offsetSum, List.take_succ_cons, List.sum_cons]
        simp only [offsetSum] at hhi
        omega

theorem cumulative_sizes_getD (ls : List Nat) (k : Nat) (h : k < ls.length) :
    (cumulative_sizes ls).getD k 0 = offsetSum ls (k + 1) := by
  induction ls generalizing k with
  | nil => simp at h
  | cons l ls ih =>
    have hcums : cumulative_sizes (l :: ls) =
        l :: (cumulative_sizes ls).map (fun v => l + v) := by
      simp only [cumulative_sizes, cumsum_aux, Nat.zero_add]
      rw [cumsum_aux_shift l ls]
    cases k with
    | zero => simp [hcums, offsetSum]
    | succ k =>
      simp only [List.length_cons, Nat.add_lt_add_iff_right] at h
      rw [hcums]
      simp only [List.getD_cons_succ]
      have hk : k < ((cumulative_sizes ls).map (fun v => l + v)).length := by
        simp [cumulative_sizes, cumsum_aux_length]; omega
      have hk2 : k < (cumulative_sizes ls).length := by
        simp [cumulative_sizes, cumsum_aux_length]; omega
      rw [List.getD_eq_getElem _ _ hk, List.getElem_map,
          ← List.getD_eq_getElem (cumulative_sizes ls) 0 hk2, ih k h]
      simp only [offsetSum, List.take_succ_cons, List.sum_cons]

/-- Full specification of the shared index-resolution step: the child
index is in range, the local index is inside the child, and the prefix
sum composes back to the flat index. -/
theorem resolve_spec (ls : List Nat) (i : Nat) (h : i < ls.sum) :
    (resolve ls i).1 < ls.length ∧
    (resolve ls i).2 < ls.getD (resolve ls i).1 0 ∧
    offsetSum ls (resolve ls i).1 + (resolve ls i).2 = i := by
  rcases bisect_cumulative_spec ls i h with ⟨hj, hlo, hhi⟩
  simp only [resolve]
  by_cases h0 : bisect_right (cumulative_sizes ls) i = 0
  · rw [h0] at hj hlo hhi ⊢
    simp only [reduceIte]
    refine ⟨hj, ?_, by simp [offsetSum]⟩
    have h2 := offsetSum_succ ls 0 hj
    rw [h2, offsetSum_zero] at hhi
    omega
  · have hj1 : bisect_right (cumulative_sizes ls) i - 1 < ls.length := by omega
    have hgd : (cumulative_sizes ls).getD (bisect_right (cumulative_sizes ls) i - 1) 0 =
        offsetSum ls (bisect_right (cumulative_sizes ls) i) := by
      rw [cumulative_sizes_getD ls _ hj1]
      congr 1
      omega
    have hsucc := offsetSum_succ ls (bisect_right (cumulative_sizes ls) i) hj
    refine ⟨hj, ?_, ?_⟩
    · simp only [if_neg h0, hgd]
      omega
    · simp only [if_neg h0, hgd]
      omega

/-- One value of the tuple returned by an item access.  The primary
data array and the label carry an opaque integer payload standing for
the tensor contents; the identifier constructors mirror the tensors
inserted by `Thinker.__getitem__` and `Dataset.__getitem__`
(`dataset_id`/`task_id` may be `None`, hence `Option`). -/
inductive TVal where
  | data (x : Int)
  | label (y : Int)
  | task (t : Option Int)
  | dataset (d : Option Int)
  | subject (p : Nat)
  | session (s : Nat)
  | trial (t : Nat)
deriving DecidableEq

/-- Python `list.insert(n, v)` for non-negative `n` (positions beyond
the end append, as in Python). -/
def list_insert {α : Type} : Nat → α → List α → List α
  | 0, v, l => v :: l
  | _ + 1, v, [] => [v]
  | n + 1, v, a :: l => a :: list_insert n v l

/-- A transform (`BaseTransform`): an apply step executed per item and
pure declared-effect functions used only by the property queries.
`only_trial_data` scopes apply to the primary array; `applyOne` is the
result of calling the transform on `x[0]` (a list models a returned
tuple, which is spliced); `applyFull` is the call on the whole tuple.
`new_sfreq_chs` is the same Python `new_sfreq` method applied (by duck
typing) to a channel array — `Thinker.channels` does call it so. -/
structure BaseTransform where
  only_trial_data : Bool
  applyOne : TVal → List TVal
  applyFull : List TVal → List TVal
  new_sfreq : Int → Int
  new_sequence_length : Int → Int
  new_channels : List (String × Nat) → List (String × Nat)
  new_sfreq_chs : List (String × Nat) → List (String × Nat)

/-- Models `DN3ataset._execute_transforms`: fold the attached transforms over
the value tuple in registration order. -/
def execute_transforms (tfs : List BaseTransform) (x : List TVal) : List TVal :=
  tfs.foldl
    (fun x tf =>
      if tf.only_trial_data then tf.applyOne (x.headD (.data 0)) ++ x.tail
      else tf.applyFull x) x

/-- A leaf recording as seen by the composite entities: its length
(window/trial count), its raw item tuple (before the recording's own
transforms), its transform list, and the base values of the three
derived properties (`_recording_sfreq`, `_recording_len`,
`_recording_channels`; channels are ordered (name, kind) descriptors). -/
structure SessionRec where
  len : Nat
  item : Nat → List TVal
  transforms : List BaseTransform
  rec_sfreq : Int
  rec_seq_len : Int
  rec_channels : List (String × Nat)

def dummy_session : SessionRec :=
  ⟨0, fun _ => [], [], 0, 0, []⟩

/-- Models `Thinker`: ordered mapping of session ids to recordings, plus the
identifier-return flags pushed down from a containing `Dataset`. -/
structure ThinkerM where
  sessions : List (String × SessionRec)
  person_id : String
  return_session_id : Bool
  return_trial_id : Bool
  transforms : List BaseTransform

def dummy_thinker : ThinkerM :=
  ⟨[], "", false, false, []⟩

/-- Models `Dataset`: ordered mapping of person ids to thinkers (sorted by id
at construction), scalar dataset/task ids, and identifier-return flags. -/
structure DatasetM where
  thinkers : List (String × ThinkerM)
  dataset_id : Option Int
  task_id : Option Int
  return_trial_id : Bool
  return_session_id : Bool
  return_person_id : Bool
  return_dataset_id : Bool
  return_task_id : Bool
  transforms : List BaseTransform

/-- A recording's `__getitem__` result: raw tuple, then its own
transform pipeline. -/
def session_item (s : SessionRec) (i : Nat) : List TVal :=
  execute_transforms s.transforms (s.item i)

/-- Models `ConcatDataset.__len__` / `Thinker.__len__`: last cumulative size
(Python raises on an empty child list; the model returns 0 there). -/
def thinker_len (t : ThinkerM) : Nat :=
  (cumulative_sizes (t.sessions.map (fun q => q.2.len))).getLastD 0

/-- Models `ConcatDataset.__getitem__`: resolve the flat index over the
children's cumulative sizes and delegate. -/
def concat_get (children : List SessionRec) (item : Nat) : List TVal :=
  session_item (children.getD (resolve (children.map (fun s => s.len)) item).1 dummy_session)
    (resolve (children.map (fun s => s.len)) item).2

/-- Models `Thinker.__getitem__`: fetch from the resolved session, then insert
the (enumerated) trial and session identifiers at position 1, then run
the thinker's transforms. -/
def thinker_get (t : ThinkerM) (item : Nat) : List TVal :=
  let r := resolve (t.sessions.map (fun q => q.2.len)) item
  let x := concat_get (t.sessions.map (fun q => q.2)) item
  let x := if t.return_trial_id then list_insert 1 (.trial r.2) x else x
  let x := if t.return_session_id then list_insert 1 (.session r.1) x else x
  execute_transforms t.transforms x

/-- Models `Dataset.__len__`. -/
def dn3_len (D : DatasetM) : Nat :=
  (cumulative_sizes (D.thinkers.map (fun q => thinker_len q.2))).getLastD 0

/-- Models `Dataset.__getitem__`: resolve the flat index to a thinker and a
local index, delegate, then insert the enumerated person id and the
dataset/task ids at position 1, then run the dataset's transforms. -/
def dataset_get (D : DatasetM) (item : Nat) : List TVal :=
  let r := resolve (D.thinkers.map (fun q => thinker_len q.2)) item
  let x := thinker_get (D.thinkers.getD r.1 ("", dummy_thinker)).2 r.2
  let x := if D.return_person_id then list_insert 1 (.subject r.1) x else x
  let x := if D.return_dataset_id then list_insert 1 (.dataset D.dataset_id) x else x
  let x := if D.return_task_id then list_insert 1 (.task D.task_id) x else x
  execute_transforms D.transforms x

/-- The two-level flat-to-nested resolution `(subject position, session
position, local index)` performed by `Dataset.__getitem__` followed by
`Thinker.__getitem__`. -/
def dn3_resolve (D : DatasetM) (item : Nat) : Nat × Nat × Nat :=
  let r := resolve (D.thinkers.map (fun q => thinker_len q.2)) item
  let r2 := resolve ((D.thinkers.getD r.1 ("", dummy_thinker)).2.sessions.map (fun q => q.2.len)) r.2
  (r.1, r2.1, r2.2)

theorem getD_map_lt {α β : Type} (l : List α) (f : α → β) (n : Nat) (dβ : β) (dα : α)
    (h : n < l.length) : (l.map f).getD n dβ = f (l.getD n dα) := by
  rw [List.getD_eq_getElem _ _ (by simpa using h), List.getElem_map,
    List.getD_eq_getElem _ _ h]

theorem thinker_len_eq_sum (t : ThinkerM) :
    thinker_len t = (t.sessions.map (fun q => q.2.len)).sum :=
  cumulative_sizes_getLastD _

theorem dn3_len_eq_sum (D : DatasetM) :
    dn3_len D = (D.thinkers.map (fun q => thinker_len q.2)).sum :=
  cumulative_sizes_getLastD _

/-- Subject (thinker) position chosen for flat index `i`. -/
def subj_idx (D : DatasetM) (i : Nat) : Nat := (dn3_resolve D i).1

/-- Session position (within the chosen thinker) for flat index `i`. -/
def sess_idx (D : DatasetM) (i : Nat) : Nat := (dn3_resolve D i).2.1

/-- Local (within-session) index for flat index `i`. -/
def local_idx (D : DatasetM) (i : Nat) : Nat := (dn3_resolve D i).2.2

/-- The thinker selected for flat index `i`. -/
def thinker_at (D : DatasetM) (i : Nat) : ThinkerM :=
  (D.thinkers.getD (subj_idx D i) ("", dummy_thinker)).2

/-- The session selected for flat index `i`. -/
def session_at (D : DatasetM) (i : Nat) : SessionRec :=
  ((thinker_at D i).sessions.getD (sess_idx D i) ("", dummy_session)).2

/-- C2.  For every flat index `i` of a `Dataset`, the two-level index
resolution lands on an in-range subject, session and local index, and
composing back through the prefix sums reproduces `i`; moreover the
dataset length is the sum of the thinker lengths, which is the sum of
the recording lengths. -/
theorem dataset_index_roundtrip (D : DatasetM) (i : Nat) (hi : i < dn3_len D) :
    subj_idx D i < D.thinkers.length ∧
    sess_idx D i < (thinker_at D i).sessions.length ∧
    local_idx D i < (session_at D i).len ∧
    offsetSum (D.thinkers.map (fun q => thinker_len q.2)) (subj_idx D i) +
      (offsetSum ((thinker_at D i).sessions.map (fun q => q.2.len)) (sess_idx D i) +
        local_idx D i) = i ∧
    dn3_len D = (D.thinkers.map (fun q => thinker_len q.2)).sum ∧
    (D.thinkers.map (fun q => thinker_len q.2)).sum =
      (D.thinkers.map (fun q => (q.2.sessions.map (fun p => p.2.len)).sum)).sum := by
  set tls := D.thinkers.map (fun q => thinker_len q.2) with htls
  have hsum : dn3_len D = tls.sum := dn3_len_eq_sum D
  have hi1 : i < tls.sum := by rw [← hsum]; exact hi
  rcases resolve_spec tls i hi1 with ⟨h1, h2, h3⟩
  have hlen1 : (resolve tls i).1 < D.thinkers.length := by
    rw [htls] at h1; simpa using h1
  have hsubj : subj_idx D i = (resolve tls i).1 := rfl
  have hT : thinker_at D i = (D.thinkers.getD (resolve tls i).1 ("", dummy_thinker)).2 := rfl
  set sls := (thinker_at D i).sessions.map (fun q => q.2.len) with hsls
  have hsess : sess_idx D i = (resolve sls (resolve tls i).2).1 := rfl
  have hloc : local_idx D i = (resolve sls (resolve tls i).2).2 := rfl
  have hgd1 : tls.getD (resolve tls i).1 0 = thinker_len (thinker_at D i) := by
    rw [htls, getD_map_lt D.thinkers _ _ 0 ("", dummy_thinker) hlen1, hT]
  have h2' : (resolve tls i).2 < sls.sum := by
    rw [hgd1, thinker_len_eq_sum, ← hsls] at h2
    exact h2
  rcases resolve_spec sls _ h2' with ⟨g1, g2, g3⟩
  have hglen : (resolve sls (resolve tls i).2).1 < (thinker_at D i).sessions.length := by
    rw [hsls] at g1; simpa using g1
  have hgd2 : sls.getD (resolve sls (resolve tls i).2).1 0 = (session_at D i).len := by
    rw [hsls, getD_map_lt _ _ _ 0 ("", dummy_session) hglen]
    rfl
  refine ⟨?_, ?_, ?_, ?_, hsum, ?_⟩
  · rw [hsubj]; exact hlen1
  · rw [hsess]; exact hglen
  · rw [hloc, ← hgd2]; exact g2
  · rw [hsubj, hsess, hloc, g3]; exact h3
  · rw [htls]
    congr 1
    apply List.map_congr_left
    intro q _
    exact thinker_len_eq_sum q.2

theorem execute_transforms_nil (x : List TVal) : execute_transforms [] x = x := rfl

theorem getD_mem_of_lt {α : Type} (l : List α) (n : Nat) (d : α) (h : n < l.length) :
    l.getD n d ∈ l := by
  rw [List.getD_eq_getElem _ _ h]
  exact List.getElem_mem h

/-- The identifier values `Dataset.__getitem__`/`Thinker.__getitem__`
insert for the enabled flags, in their documented nearest-to-data-first
order `[task?, dataset?, subject?, session?, trial?]`. -/
def ids_list (D : DatasetM) (p s t : Nat) : List TVal :=
  (if D.return_task_id then [TVal.task D.task_id] else []) ++
  (if D.return_dataset_id then [TVal.dataset D.dataset_id] else []) ++
  (if D.return_person_id then [TVal.subject p] else []) ++
  (if D.return_session_id then [TVal.session s] else []) ++
  (if D.return_trial_id then [TVal.trial t] else [])

theorem cond_insert1 (b : Bool) (y a : TVal) (l : List TVal) :
    (if b then list_insert 1 y (a :: l) else a :: l) =
      a :: ((if b then [y] else []) ++ l) := by
  cases b <;> simp [list_insert]

/-- C7.  With no transforms attached anywhere and the thinkers' flags
synchronized with the dataset's (as `update_id_returns` enforces), an
item access returns the session's raw tuple `data :: rest` with the
enabled identifiers inserted between `data` and `rest` in the order
`[data, task?, dataset?, subject?, session?, trial?, ...rest]`, the
subject and session identifiers being the zero-based enumerated
positions produced by index resolution. -/
theorem dataset_item_order (D : DatasetM) (i : Nat) (v : Int) (rest : List TVal)
    (hDt : D.transforms = [])
    (hth : ∀ q ∈ D.thinkers, q.2.transforms = [] ∧ ∀ p ∈ q.2.sessions, p.2.transforms = [])
    (hfl : ∀ q ∈ D.thinkers, q.2.return_session_id = D.return_session_id ∧
      q.2.return_trial_id = D.return_trial_id)
    (hi : i < dn3_len D)
    (hitem : (session_at D i).item (local_idx D i) = TVal.data v :: rest) :
    dataset_get D i =
      TVal.data v :: (ids_list D (subj_idx D i) (sess_idx D i) (local_idx D i) ++ rest) := by
  set tls := D.thinkers.map (fun q => thinker_len q.2) with htls
  have hi1 : i < tls.sum := by rw [← dn3_len_eq_sum]; exact hi
  rcases resolve_spec tls i hi1 with ⟨h1, h2, h3⟩
  have hlen1 : (resolve tls i).1 < D.thinkers.length := by
    rw [htls] at h1; simpa using h1
  have hT : thinker_at D i = (D.thinkers.getD (resolve tls i).1 ("", dummy_thinker)).2 := rfl
  have hTmem : D.thinkers.getD (resolve tls i).1 ("", dummy_thinker) ∈ D.thinkers :=
    getD_mem_of_lt _ _ _ hlen1
  obtain ⟨hTtf, hStf⟩ := hth _ hTmem
  obtain ⟨hTsess, hTtr⟩ := hfl _ hTmem
  set sls := (thinker_at D i).sessions.map (fun q => q.2.len) with hsls
  have hgd1 : tls.getD (resolve tls i).1 0 = thinker_len (thinker_at D i) := by
    rw [htls, getD_map_lt D.thinkers _ _ 0 ("", dummy_thinker) hlen1, hT]
  have h2' : (resolve tls i).2 < sls.sum := by
    rw [hgd1, thinker_len_eq_sum, ← hsls] at h2
    exact h2
  rcases resolve_spec sls _ h2' with ⟨g1, g2, g3⟩
  have hglen : (resolve sls (resolve tls i).2).1 < (thinker_at D i).sessions.length := by
    rw [hsls] at g1; simpa using g1
  have hSmem : (thinker_at D i).sessions.getD (resolve sls (resolve tls i).2).1
      ("", dummy_session) ∈ (thinker_at D i).sessions :=
    getD_mem_of_lt _ _ _ hglen
  have hStf2 : (session_at D i).transforms = [] := by
    rw [← hT] at hStf
    exact hStf _ hSmem
  have hconcat : concat_get ((thinker_at D i).sessions.map (fun q => q.2))
      (resolve tls i).2 = TVal.data v :: rest := by
    simp only [concat_get, List.map_map]
    have hfeq : ((fun s : SessionRec => s.len) ∘ (fun q : String × SessionRec => q.2)) =
        (fun q : String × SessionRec => q.2.len) := rfl
    rw [hfeq, ← hsls,
      getD_map_lt (thinker_at D i).sessions (fun q => q.2) _ dummy_session
        ("", dummy_session) hglen]
    have : ((thinker_at D i).sessions.getD (resolve sls (resolve tls i).2).1
        ("", dummy_session)).2 = session_at D i := rfl
    rw [this, session_item, hStf2, execute_transforms_nil]
    exact hitem
  have hthget : thinker_get (thinker_at D i) (resolve tls i).2 =
      TVal.data v :: ((if D.return_session_id then [TVal.session (sess_idx D i)] else []) ++
        ((if D.return_trial_id then [TVal.trial (local_idx D i)] else []) ++ rest)) := by
    simp only [thinker_get, ← hsls]
    rw [hconcat]
    have hTtf2 : (thinker_at D i).transforms = [] := by rw [hT]; exact hTtf
    have hs2 : (thinker_at D i).return_session_id = D.return_session_id := by
      rw [hT]; exact hTsess
    have ht2 : (thinker_at D i).return_trial_id = D.return_trial_id := by
      rw [hT]; exact hTtr
    rw [hTtf2, execute_transforms_nil, hs2, ht2, cond_insert1, cond_insert1]
    rfl
  have hxT : (D.thinkers.getD (resolve tls i).1 ("", dummy_thinker)).2 = thinker_at D i := rfl
  simp only [dataset_get, ← htls]
  rw [hxT, hthget, cond_insert1, cond_insert1, cond_insert1, hDt, execute_transforms_nil]
  have hp : (resolve tls i).1 = subj_idx D i := rfl
  rw [hp]
  simp [ids_list, List.append_assoc]

/-- Session used by the concrete index-arithmetic instances: only the
length matters. -/
def mk_len_session (n : Nat) : SessionRec :=
  ⟨n, fun _ => [], [], 256, 100, [("Cz", 2)]⟩

def c2_dataset : DatasetM :=
  { thinkers :=
      [("A", ⟨[("s1", mk_len_session 2), ("s2", mk_len_session 1)], "A", false, false, []⟩),
       ("B", ⟨[("t1", mk_len_session 3)], "B", false, false, []⟩)],
    dataset_id := none, task_id := none,
    return_trial_id := false, return_session_id := false, return_person_id := false,
    return_dataset_id := false, return_task_id := false, transforms := [] }

/-- Witness for C2 at a concrete two-thinker dataset and flat index 4. -/
theorem dataset_index_roundtrip_witness :
    subj_idx c2_dataset 4 < c2_dataset.thinkers.length ∧
    sess_idx c2_dataset 4 < (thinker_at c2_dataset 4).sessions.length ∧
    local_idx c2_dataset 4 < (session_at c2_dataset 4).len ∧
    offsetSum (c2_dataset.thinkers.map (fun q => thinker_len q.2)) (subj_idx c2_dataset 4) +
      (offsetSum ((thinker_at c2_dataset 4).sessions.map (fun q => q.2.len))
        (sess_idx c2_dataset 4) + local_idx c2_dataset 4) = 4 ∧
    dn3_len c2_dataset = (c2_dataset.thinkers.map (fun q => thinker_len q.2)).sum ∧
    (c2_dataset.thinkers.map (fun q => thinker_len q.2)).sum =
      (c2_dataset.thinkers.map (fun q => (q.2.sessions.map (fun p => p.2.len)).sum)).sum :=
  dataset_index_roundtrip c2_dataset 4 (by decide)

def c7_session : SessionRec :=
  ⟨1, fun _ => [TVal.data 7, TVal.label 1], [], 256, 100, [("Cz", 2)]⟩

def c7_dataset : DatasetM :=
  { thinkers := [("A", ⟨[("s", c7_session)], "A", true, true, []⟩)],
    dataset_id := some 4, task_id := some 9,
    return_trial_id := true, return_session_id := true, return_person_id := true,
    return_dataset_id := true, return_task_id := true, transforms := [] }

/-- Witness for C7: all identifier flags enabled at a concrete dataset. -/
theorem dataset_item_order_witness :
    dataset_get c7_dataset 0 = TVal.data 7 ::
      (ids_list c7_dataset (subj_idx c7_dataset 0) (sess_idx c7_dataset 0)
        (local_idx c7_dataset 0) ++ [TVal.label 1]) :=
  dataset_item_order c7_dataset 0 7 [TVal.label 1] rfl
    (by
      intro q hq
      have hq2 : q ∈ [("A", (⟨[("s", c7_session)], "A", true, true, []⟩ : ThinkerM))] := hq
      rw [List.mem_singleton] at hq2
      subst hq2
      refine ⟨rfl, ?_⟩
      intro p hp
      have hp2 : p ∈ [("s", c7_session)] := hp
      rw [List.mem_singleton] at hp2
      subst hp2
      rfl)
    (by
      intro q hq
      have hq2 : q ∈ [("A", (⟨[("s", c7_session)], "A", true, true, []⟩ : ThinkerM))] := hq
      rw [List.mem_singleton] at hq2
      subst hq2
      exact ⟨rfl, rfl⟩)
    (by decide)
    rfl

/-- Models `Thinker.clear_transforms(deep_clear)`: empty the thinker's own
transform list; clear each session's only when `deep_clear` is set
(its Python default is `False`). -/
def thinker_clear_transforms (t : ThinkerM) (deep_clear : Bool) : ThinkerM :=
  { t with
    transforms := [],
    sessions :=
      if deep_clear then t.sessions.map (fun q => (q.1, { q.2 with transforms := [] }))
      else t.sessions }

/-- C10.  With the default argument the thinker's own transform list is
emptied and nothing else changes — in particular every child session's
transform list is untouched; passing `deep_clear := true` additionally
clears each session's transforms. -/
theorem clear_transforms_frame (t : ThinkerM) :
    thinker_clear_transforms t false = { t with transforms := [] } ∧
    thinker_clear_transforms t true =
      { t with transforms := [],
               sessions := t.sessions.map (fun q => (q.1, { q.2 with transforms := [] })) } :=
  ⟨rfl, rfl⟩

/-- Models `_same_channel_sets`: the source compares only the numpy shapes of
the channel-descriptor arrays; an array of n (name, kind) pairs has
shape (n, 2), and the second components therefore always agree, so the
check reduces to comparing lengths.  The element-wise content
comparison is commented out in the source. -/
def same_channel_sets (channel_sets : List (List (String × Nat))) : Bool :=
  channel_sets.tail.all (fun chs => chs.length = (channel_sets.headD []).length)

/-- Models `_Recording.sfreq`: base value with every attached transform's
`new_sfreq` folded over it. -/
def session_sfreq (s : SessionRec) : Int :=
  s.transforms.foldl (fun v tf => tf.new_sfreq v) s.rec_sfreq

/-- Models `_Recording.sequence_length`: base value with every attached
transform's `new_sequence_length` folded over it. -/
def session_sequence_length (s : SessionRec) : Int :=
  s.transforms.foldl (fun v tf => tf.new_sequence_length v) s.rec_seq_len

/-- Models `_Recording.channels`: base descriptors with every attached
transform's `new_channels` folded over them. -/
def session_channels (s : SessionRec) : List (String × Nat) :=
  s.transforms.foldl (fun c tf => tf.new_channels c) s.rec_channels

/-- Aggregate value of a soft property over composed children.
Modelled from the spec for the missing `dn3.utils.unfurl`: a mismatch
is reported as an explicit inconsistent aggregate holding the set of
distinct child values (the Python code returns `unfurl(set(...))`),
rather than one arbitrarily chosen child's value. -/
inductive Agg where
  | consistent (v : Int)
  | inconsistent (vs : List Int)
deriving DecidableEq

inductive DErr where
  | consistencyErr
deriving DecidableEq

/-- Models `Thinker.sfreq`: distinct child values; if more than one, the
inconsistent aggregate; else the common value with the thinker's
transforms' `new_sfreq` folded over it. -/
def thinker_sfreq (t : ThinkerM) : Agg :=
  let vals := (t.sessions.map (fun q => session_sfreq q.2)).dedup
  if 1 < vals.length then .inconsistent vals
  else .consistent (t.transforms.foldl (fun v tf => tf.new_sfreq v) (vals.headD 0))

/-- Models `Thinker.sequence_length`: like `thinker_sfreq`, but note the
source folds `new_sfreq` — not `new_sequence_length` — over the common
value (dataset.py line 418). -/
def thinker_sequence_length (t : ThinkerM) : Agg :=
  let vals := (t.sessions.map (fun q => session_sequence_length q.2)).dedup
  if 1 < vals.length then .inconsistent vals
  else .consistent (t.transforms.foldl (fun v tf => tf.new_sfreq v) (vals.headD 0))

/-- Models `Thinker.channels`: hard consistency check via `_same_channel_sets`
(raising `ValueError` on failure), then `channels.pop()` — the LAST
child's set — with the thinker's transforms folded over it; the source
calls `new_sfreq` on the array (line 407), modelled by `new_sfreq_chs`. -/
def thinker_channels (t : ThinkerM) : Except DErr (List (String × Nat)) :=
  let sets := t.sessions.map (fun q => session_channels q.2)
  if same_channel_sets sets
  then .ok (t.transforms.foldl (fun c tf => tf.new_sfreq_chs c) (sets.getLastD []))
  else .error .consistencyErr

/-- Models `Dataset.channels`: children are the thinkers; same hard check,
then `pop()` and a fold of the dataset transforms' `new_channels`. -/
def dataset_channels (D : DatasetM) : Except DErr (List (String × Nat)) := do
  let sets ← D.thinkers.mapM (fun q => thinker_channels q.2)
  if same_channel_sets sets
  then .ok (D.transforms.foldl (fun c tf => tf.new_channels c) (sets.getLastD []))
  else .error .consistencyErr

/-- Models `Dataset.sequence_length`: folds `new_sequence_length` (correctly)
over the common value. -/
def dataset_sequence_length_of (vals : List Int) (tfs : List BaseTransform) : Agg :=
  if 1 < vals.dedup.length then .inconsistent vals.dedup
  else .consistent (tfs.foldl (fun v tf => tf.new_sequence_length v) (vals.dedup.headD 0))

/-- The transform of C4's example: declares
`new_sequence_length(n) = n // 2` and leaves the rate unchanged. -/
def halve_seq_transform : BaseTransform :=
  { only_trial_data := true, applyOne := fun v => [v], applyFull := fun x => x,
    new_sfreq := fun r => r, new_sequence_length := fun n => n / 2,
    new_channels := fun c => c, new_sfreq_chs := fun c => c }

def c4_session : SessionRec :=
  ⟨18, fun _ => [], [], 256, 100, [("Cz", 2)]⟩

def c4_session_tf : SessionRec :=
  { c4_session with transforms := [halve_seq_transform] }

def c4_thinker : ThinkerM :=
  ⟨[("0", c4_session)], "p", false, false, [halve_seq_transform]⟩

/-- C4.  At the leaf a transform declaring
`new_sequence_length(n) = n // 2` makes the sequence-length query
report 50 as specified, but the same transform attached to a Thinker
leaves the query at the base value 100: `Thinker.sequence_length`
folds `new_sfreq` instead of `new_sequence_length` (and
`Thinker.channels` likewise folds `new_sfreq`), contradicting the
declared-effect contract the rest of the code follows. -/
theorem thinker_seqlen_bug :
    session_sequence_length c4_session_tf = 50 ∧
    thinker_sequence_length c4_thinker = .consistent 100 ∧
    dataset_sequence_length_of [100] [halve_seq_transform] = .consistent 50 := by
  refine ⟨rfl, rfl, rfl⟩

theorem all_eq_getLastD {α : Type} (l : List α) (c d : α) (hne : l ≠ [])
    (h : ∀ x ∈ l, x = c) : l.getLastD d = c := by
  induction l generalizing d with
  | nil => exact absurd rfl hne
  | cons a l ih =>
    cases l with
    | nil => simpa using h a (by simp)
    | cons b l =>
      rw [List.getLastD_cons]
      exact ih a (by simp) (fun x hx => h x (by simp [hx]))

/-- C5 (amended).  Querying channels on a composed group raises the
hard consistency error exactly when the children's channel-descriptor
arrays differ in shape (channel count); when the children's layouts
match exactly the common layout is returned; sampling-rate and
sequence-length mismatches are not errors — they produce the explicit
inconsistent aggregate of the distinct child values. -/
theorem channel_consistency_spec (t : ThinkerM) (c : List (String × Nat))
    (hne : t.sessions ≠ []) :
    (same_channel_sets (t.sessions.map (fun q => session_channels q.2)) = false →
      thinker_channels t = .error .consistencyErr) ∧
    ((∀ q ∈ t.sessions, session_channels q.2 = c) → t.transforms = [] →
      thinker_channels t = .ok c) ∧
    (1 < ((t.sessions.map (fun q => session_sequence_length q.2)).dedup).length →
      thinker_sequence_length t =
        .inconsistent ((t.sessions.map (fun q => session_sequence_length q.2)).dedup)) ∧
    (1 < ((t.sessions.map (fun q => session_sfreq q.2)).dedup).length →
      thinker_sfreq t =
        .inconsistent ((t.sessions.map (fun q => session_sfreq q.2)).dedup)) := by
  refine ⟨?_, ?_, ?_, ?_⟩
  · intro hbad
    simp only [thinker_channels, hbad]
    rfl
  · intro hall htf
    have hmapne : t.sessions.map (fun q => session_channels q.2) ≠ [] := by
      simp [hne]
    have hallmap : ∀ x ∈ t.sessions.map (fun q => session_channels q.2), x = c := by
      intro x hx
      rcases List.mem_map.mp hx with ⟨q, hq, rfl⟩
      exact hall q hq
    have hsame : same_channel_sets (t.sessions.map (fun q => session_channels q.2)) = true := by
      unfold same_channel_sets
      rw [List.all_eq_true]
      intro chs hchs
      have h1 : chs = c := hallmap chs (List.mem_of_mem_tail hchs)
      have h2 : (t.sessions.map (fun q => session_channels q.2)).headD [] = c := by
        cases hmap : t.sessions.map (fun q => session_channels q.2) with
        | nil => exact absurd hmap hmapne
        | cons a l =>
          have : a = c := hallmap a (by rw [hmap]; simp)
          simp [this]
      rw [h1, h2]
      simp
    simp only [thinker_channels, hsame, if_pos, htf]
    rw [all_eq_getLastD _ c [] hmapne hallmap]
    rfl
  · intro hbad
    simp only [thinker_sequence_length, if_pos hbad]
  · intro hbad
    simp only [thinker_sfreq, if_pos hbad]

def c5_session_a : SessionRec :=
  ⟨1, fun _ => [], [], 256, 100, [("A", 2)]⟩

def c5_session_b : SessionRec :=
  ⟨1, fun _ => [], [], 256, 100, [("B", 2)]⟩

def c5_thinker : ThinkerM :=
  ⟨[("0", c5_session_a), ("1", c5_session_b)], "p", false, false, []⟩

/-- Counterexample to C5 as stated: two children whose channel layouts
differ in content but not in count pass the check — no error is
raised, and the query returns the LAST child's layout. -/
theorem channel_content_mismatch_counterexample :
    session_channels c5_session_a ≠ session_channels c5_session_b ∧
    thinker_channels c5_thinker = .ok [("B", 2)] := by
  exact ⟨by decide, rfl⟩

def c5w_session_a : SessionRec :=
  ⟨1, fun _ => [], [], 256, 100, [("Cz", 2)]⟩

def c5w_session_b : SessionRec :=
  ⟨1, fun _ => [], [], 512, 200, [("Cz", 2)]⟩

def c5w_thinker : ThinkerM :=
  ⟨[("0", c5w_session_a), ("1", c5w_session_b)], "p", false, false, []⟩

/-- Witness for C5 at a concrete thinker whose sessions share the
channel layout but disagree on rate and sequence length. -/
theorem channel_consistency_spec_witness :
    (same_channel_sets (c5w_thinker.sessions.map (fun q => session_channels q.2)) = false →
      thinker_channels c5w_thinker = .error .consistencyErr) ∧
    ((∀ q ∈ c5w_thinker.sessions, session_channels q.2 = [("Cz", 2)]) →
      c5w_thinker.transforms = [] → thinker_channels c5w_thinker = .ok [("Cz", 2)]) ∧
    (1 < ((c5w_thinker.sessions.map (fun q => session_sequence_length q.2)).dedup).length →
      thinker_sequence_length c5w_thinker =
        .inconsistent ((c5w_thinker.sessions.map (fun q => session_sequence_length q.2)).dedup)) ∧
    (1 < ((c5w_thinker.sessions.map (fun q => session_sfreq q.2)).dedup).length →
      thinker_sfreq c5w_thinker =
        .inconsistent ((c5w_thinker.sessions.map (fun q => session_sfreq q.2)).dedup)) :=
  channel_consistency_spec c5w_thinker [("Cz", 2)] (List.cons_ne_nil _ _)

/-- Models `RawTorchRecording.__init__` line 216:
`self._num_sequences = max(0, (self.raw.n_times - self.sequence_length) // self.stride)`;
Python `//` is floor division (`Int.fdiv`).  The decimation factor does
not appear in the computation. -/
def raw_num_sequences (n_times sequence_length stride : Int) : Int :=
  max 0 ((n_times - sequence_length).fdiv stride)

/-- The window-count formula as the spec words it:
`max(0, floor((N/D − sequence_length) / stride))`. -/
def spec_window_count (n d sequence_length stride : Int) : Int :=
  max 0 ((n.fdiv d - sequence_length).fdiv stride)

/-- C3 (amended).  The continuous window count is
`max(0, floor((N − L) / stride))` with no decimation adjustment; it
agrees with the spec's formula when `D = 1`, is 0 when `N = L`, and is
18 for N=1000, L=100, stride=50. -/
theorem raw_window_count_spec (N L s : Int) :
    raw_num_sequences N L s = spec_window_count N 1 L s ∧
    raw_num_sequences L L s = 0 ∧
    raw_num_sequences 1000 100 50 = 18 := by
  refine ⟨?_, ?_, by decide⟩
  · simp [raw_num_sequences, spec_window_count, Int.fdiv_one]
  · simp [raw_num_sequences, Int.zero_fdiv]

/-- Counterexample to C3 as stated: with decimation D=2 the spec's
formula gives 8 windows but the code computes 18 — `_num_sequences`
never divides by the decimation factor. -/
theorem window_count_decimate_counterexample :
    raw_num_sequences 1000 100 50 = 18 ∧
    spec_window_count 1000 2 100 50 = 8 ∧
    raw_num_sequences 1000 100 50 ≠ spec_window_count 1000 2 100 50 := by
  decide

/-- Models `RawTorchRecording`: the underlying buffer is the collaborator's
sample array, `buf channel time`; windows are matrices
(lists of channel rows).  Transforms are modelled by their action on
the returned matrix (both branches of `__getitem__` apply the same
`_execute_transforms`). -/
structure RawRec where
  buf : Nat → Nat → Int
  n_channels : Nat
  n_times : Nat
  picks : List Nat
  stride : Nat
  decim : Nat
  seq_len : Nat
  preload : Bool
  tfs : List (List (List Int) → List (List Int))

/-- Models `mne.io.Raw.get_data(picks, start, stop)`: rows in pick order,
columns `start ..` clamped to the recording length. -/
def get_data (r : RawRec) (picks : List Nat) (start stop : Nat) : List (List Int) :=
  picks.map (fun c => (List.range (min stop r.n_times - start)).map (fun j => r.buf c (start + j)))

/-- Models `self._stride_load = stride > self.sequence_length and raw.preload`. -/
def stride_load (r : RawRec) : Bool :=
  decide (r.seq_len < r.stride) && r.preload

/-- Models `__len__` = `_num_sequences` as a natural number. -/
def raw_len (r : RawRec) : Nat :=
  (raw_num_sequences r.n_times r.seq_len r.stride).toNat

/-- The picked, pre-decimated buffer
`x = raw.get_data(self.picks)[:, ::decimate]` (a Python step slice of
length `ceil(len/d)` taking every d-th element). -/
def decimated (r : RawRec) : List (List Int) :=
  (get_data r r.picks 0 r.n_times).map
    (fun row => (List.range ((row.length + r.decim - 1) / r.decim)).map
      (fun j => row.getD (j * r.decim) 0))

/-- The window stored in the dense cache:
`self._x[..., i] = x[:, t:t+L]` with `t = i*stride*decimate`
(numpy raises at construction if the slice is short; the model keeps
the short slice). -/
def cache_window (r : RawRec) (i : Nat) : List (List Int) :=
  (decimated r).map (fun row => (row.drop (i * r.stride * r.decim)).take r.seq_len)

/-- Models `RawTorchRecording.__getitem__`: negative indices wrap; the cache
branch indexes the cache's rows with `self.picks` a second time
(`self._x[self.picks, :, index]`); otherwise an on-demand
`raw.get_data` slice is taken.  The NaN substitution and the scale
warning are not modelled (finite buffers). -/
def raw_get (r : RawRec) (index : Int) : List (List Int) :=
  let idx : Nat := (if index < 0 then index + (raw_len r : Int) else index).toNat
  let x :=
    if stride_load r then r.picks.map (fun p => (cache_window r idx).getD p [])
    else get_data r r.picks (idx * r.stride * r.decim) (idx * r.stride * r.decim + r.seq_len)
  r.tfs.foldl (fun a f => f a) x

/-- The on-demand branch of `__getitem__` in isolation: start offset
`i*stride*decimate`, `sequence_length` samples over the picks. -/
def raw_get_ondemand (r : RawRec) (i : Nat) : List (List Int) :=
  r.tfs.foldl (fun a f => f a)
    (get_data r r.picks (i * r.stride * r.decim) (i * r.stride * r.decim + r.seq_len))

theorem map_getD_range_self {α : Type} (l : List α) (d : α) :
    (List.range l.length).map (fun j => l.getD j d) = l := by
  induction l with
  | nil => rfl
  | cons a l ih =>
    rw [List.length_cons, List.range_succ_eq_map, List.map_cons, List.map_map]
    simp only [List.getD_cons_zero]
    have h2 : List.map ((fun j => (a :: l).getD j d) ∘ Nat.succ) (List.range l.length) = l := ih
    rw [h2]

theorem slice_range_map {α : Type} (f : Nat → α) (N t L : Nat) (h : t + L ≤ N) :
    (((List.range N).map f).drop t).take L = (List.range L).map (fun j => f (t + j)) := by
  apply List.ext_getElem
  · simp only [List.length_take, List.length_drop, List.length_map, List.length_range]
    omega
  · intro n h1 h2
    simp only [List.getElem_take, List.getElem_drop, List.getElem_map, List.getElem_range]

theorem range_getD (k p : Nat) (h : p < k) : (List.range k).getD p 0 = p := by
  rw [List.getD_eq_getElem _ _ (by simpa using h), List.getElem_range]

/-- Models `_num_sequences` in natural-number arithmetic. -/
theorem raw_len_eq (r : RawRec) :
    raw_len r = (r.n_times - r.seq_len) / r.stride := by
  unfold raw_len raw_num_sequences
  rcases Nat.le_total r.seq_len r.n_times with h | h
  · have h1 : ((r.n_times : Int) - (r.seq_len : Int)) = ((r.n_times - r.seq_len : Nat) : Int) := by
      omega
    have h2 : ((r.n_times - r.seq_len : Nat) : Int) / ((r.stride : Nat) : Int) =
        (((r.n_times - r.seq_len) / r.stride : Nat) : Int) := by
      norm_cast
    rw [h1, Int.fdiv_eq_ediv _ (by positivity), h2, max_eq_right (by positivity)]
    exact Int.toNat_natCast _
  · have h0 : r.n_times - r.seq_len = 0 := by omega
    rw [h0, Nat.zero_div]
    rcases Nat.eq_or_lt_of_le h with h | h
    · rw [h]
      simp [Int.zero_fdiv]
    · have hneg : ((r.n_times : Int) - (r.seq_len : Int)) < 0 := by omega
      have hle : ((r.n_times : Int) - (r.seq_len : Int)).fdiv (r.stride : Int) ≤ 0 := by
        rcases Nat.eq_zero_or_pos r.stride with hz | hz
        · rw [hz]
          simp [Int.fdiv_zero]
        · exact Int.le_of_lt (Int.fdiv_neg' hneg (by exact_mod_cast hz))
      rw [max_eq_left hle]
      rfl

/-- C8 (amended).  With `decimate = 1` and identity channel picks
`[0, …, k-1]`, the dense-cache branch of `__getitem__` returns exactly
the on-demand slice for every valid index.  (The counterexample shows
the equivalence fails for `decimate ≠ 1`; non-initial-segment picks
break it too because the cache rows are re-indexed with `self.picks`.) -/
theorem stride_cache_equiv (r : RawRec) (i k : Nat)
    (hpicks : r.picks = List.range k) (hk : k ≤ r.n_channels) (hd : r.decim = 1)
    (hsl : stride_load r = true) (hi : i < raw_len r) :
    raw_get r i = raw_get_ondemand r i := by
  have hstride : r.seq_len < r.stride := by
    simp only [stride_load, Bool.and_eq_true, decide_eq_true_eq] at hsl
    exact hsl.1
  have hdiv : i < (r.n_times - r.seq_len) / r.stride := by
    rw [← raw_len_eq]
    exact hi
  have hmul : (i + 1) * r.stride ≤ r.n_times - r.seq_len :=
    (Nat.le_div_iff_mul_le (by omega)).mp hdiv
  rw [Nat.succ_mul] at hmul
  have htL : i * r.stride + r.seq_len ≤ r.n_times := by omega
  have hget_full : get_data r r.picks 0 r.n_times =
      (List.range k).map (fun c => (List.range r.n_times).map (fun j => r.buf c j)) := by
    rw [hpicks]
    simp [get_data, Nat.min_self]
  have hdec : decimated r =
      (List.range k).map (fun c => (List.range r.n_times).map (fun j => r.buf c j)) := by
    unfold decimated
    rw [hget_full, hd, List.map_map]
    apply List.map_congr_left
    intro c _
    simp only [Function.comp_apply]
    set row := (List.range r.n_times).map (fun j => r.buf c j) with hrow
    simp only [mul_one, Nat.add_sub_cancel, Nat.div_one]
    exact map_getD_range_self row 0
  have hwin : cache_window r i =
      (List.range k).map
        (fun c => (List.range r.seq_len).map (fun j => r.buf c (i * r.stride + j))) := by
    unfold cache_window
    rw [hdec, hd, mul_one, List.map_map]
    apply List.map_congr_left
    intro c _
    simp only [Function.comp_apply]
    exact slice_range_map (fun j => r.buf c j) r.n_times (i * r.stride) r.seq_len htL
  have hcached : r.picks.map (fun p => (cache_window r i).getD p []) =
      (List.range k).map
        (fun c => (List.range r.seq_len).map (fun j => r.buf c (i * r.stride + j))) := by
    rw [hwin, hpicks]
    apply List.map_congr_left
    intro p hp
    have hpk : p < k := List.mem_range.mp hp
    rw [getD_map_lt (List.range k) _ p [] 0 (by simpa using hpk), range_getD k p hpk]
  have hond : get_data r r.picks (i * r.stride * r.decim) (i * r.stride * r.decim + r.seq_len) =
      (List.range k).map
        (fun c => (List.range r.seq_len).map (fun j => r.buf c (i * r.stride + j))) := by
    rw [hpicks, hd, mul_one]
    unfold get_data
    have hmin : min (i * r.stride + r.seq_len) r.n_times - i * r.stride = r.seq_len := by
      omega
    rw [hmin]
  have hidx : (if (i : Int) < 0 then (i : Int) + (raw_len r : Int) else (i : Int)).toNat = i := by
    rw [if_neg (by omega)]
    omega
  simp only [raw_get, raw_get_ondemand, hidx, hsl, if_true]
  rw [hcached, hond]

def c8_rec : RawRec :=
  { buf := fun _ t => (t : Int), n_channels := 1, n_times := 5, picks := [0],
    stride := 3, decim := 2, seq_len := 2, preload := true, tfs := [] }

/-- Counterexample to C8 as stated: with `decimate = 2` the cache is
built from the decimated array but indexed with undecimated offsets
(`t = i*stride*decimate`), so the cached window [0, 2] differs from
the on-demand slice [0, 1]. -/
theorem stride_cache_decimate_counterexample :
    raw_get c8_rec 0 = [[0, 2]] ∧ raw_get_ondemand c8_rec 0 = [[0, 1]] ∧
    raw_get c8_rec 0 ≠ raw_get_ondemand c8_rec 0 := by
  decide

def c8w_rec : RawRec :=
  { buf := fun _ t => (t : Int), n_channels := 1, n_times := 10, picks := List.range 1,
    stride := 3, decim := 1, seq_len := 2, preload := true, tfs := [] }

/-- Witness for C8 at a concrete preloaded recording with stride 3 >
sequence length 2, decimate 1, identity picks, and index 1. -/
theorem stride_cache_equiv_witness : raw_get c8w_rec 1 = raw_get_ondemand c8w_rec 1 :=
  stride_cache_equiv c8w_rec 1 1 rfl (by decide) rfl (by decide) (by decide)

/-- One trial of an `EpochTorchRecording`: the numpy shape of
`ep.get_data(picks)` (normally `(1, channels, samples)`), the squeezed
payload, and the trial's event code (`ep.events[0, -1]`). -/
structure Epoch where
  shape : List Nat
  data : List (List Int)
  code : Int
deriving DecidableEq

/-- Models `EpochTorchRecording` (with `cached=False`, the default):
the ordered trials, the optional `force_label`, and the distinct event
codes (the keys of `reverse_mapping`). -/
structure EpochRec where
  epochs : List Epoch
  force_label : Option Int
  event_codes : List Int
deriving DecidableEq

/-- The shape test of `EpochTorchRecording.__getitem__`:
`len(x.shape) != 3 or 0 in x.shape`. -/
def bad_shape (e : Epoch) : Bool :=
  (e.shape.length != 3) || e.shape.contains 0

/-- Insertion into a sorted list (for Python `sorted`). -/
def insort (c : Int) : List Int → List Int
  | [] => [c]
  | a :: l => if c ≤ a then c :: a :: l else a :: insort c l

/-- Python `sorted` on a list of integers (insertion sort). -/
def sortInts (l : List Int) : List Int :=
  l.foldr insort []

/-- Models `epoch_codes_to_class_labels`: enumerate the sorted distinct codes
and map a code to its position
(`{v: i for i, v in enumerate(sorted(reverse_mapping.keys()))}`). -/
def class_label (codes : List Int) (c : Int) : Nat :=
  (sortInts codes).findIdx (fun a => a == c)

inductive EpochErr where
  | indexErr
deriving DecidableEq

/-- Models `EpochTorchRecording.__getitem__` with explicit fuel (the measure
`(index + len + 1).toNat` strictly decreases along the `index - 1`
recursion, so the fuel in `epoch_get` is always sufficient).
`self.epochs[index]` follows Python indexing: negative indices wrap
from the end, out-of-range raises.  An invalid-shape trial recurses on
`index - 1` (printing a diagnostic, not modelled); a valid trial
returns its squeezed data and the `force_label` override or the class
label of its event code. -/
def epoch_get_aux (r : EpochRec) : Nat → Int → Except EpochErr (List (List Int) × Int)
  | 0, _ => .error .indexErr
  | fuel + 1, index =>
    if index < -(r.epochs.length : Int) ∨ (r.epochs.length : Int) ≤ index then
      .error .indexErr
    else
      let i : Nat := (if index < 0 then index + (r.epochs.length : Int) else index).toNat
      let e := r.epochs.getD i ⟨[], [], 0⟩
      if bad_shape e then epoch_get_aux r fuel (index - 1)
      else .ok (e.data, r.force_label.getD (class_label r.event_codes e.code))

/-- Models `EpochTorchRecording.__getitem__`. -/
def epoch_get (r : EpochRec) (index : Int) : Except EpochErr (List (List Int) × Int) :=
  epoch_get_aux r (index + r.epochs.length + 1).toNat index

/-- One unfolding step of `epoch_get` for an in-range index. -/
theorem epoch_get_step (r : EpochRec) (index : Int)
    (h1 : -(r.epochs.length : Int) ≤ index) (h2 : index < (r.epochs.length : Int)) :
    epoch_get r index =
      if bad_shape (r.epochs.getD
          ((if index < 0 then index + (r.epochs.length : Int) else index).toNat) ⟨[], [], 0⟩)
      then epoch_get r (index - 1)
      else .ok ((r.epochs.getD
          ((if index < 0 then index + (r.epochs.length : Int) else index).toNat)
            ⟨[], [], 0⟩).data,
        r.force_label.getD (class_label r.event_codes
          (r.epochs.getD
            ((if index < 0 then index + (r.epochs.length : Int) else index).toNat)
              ⟨[], [], 0⟩).code)) := by
  unfold epoch_get
  have hf : (index + (r.epochs.length : Int) + 1).toNat =
      ((index - 1 + (r.epochs.length : Int) + 1).toNat) + 1 := by omega
  rw [hf]
  rw [epoch_get_aux]
  rw [if_neg (by omega)]

/-- Models `epoch_get` on a valid in-range trial. -/
theorem epoch_get_valid (r : EpochRec) (j : Nat) (hj : j < r.epochs.length)
    (hgood : bad_shape (r.epochs.getD j ⟨[], [], 0⟩) = false) :
    epoch_get r j = .ok ((r.epochs.getD j ⟨[], [], 0⟩).data,
      r.force_label.getD (class_label r.event_codes (r.epochs.getD j ⟨[], [], 0⟩).code)) := by
  rw [epoch_get_step r j (by omega) (by omega)]
  have hidx : ((if (j : Int) < 0 then (j : Int) + (r.epochs.length : Int)
      else (j : Int)).toNat) = j := by
    rw [if_neg (by omega)]
    omega
  rw [hidx, hgood]
  simp

/-- C9 (amended).  For an in-range index `i`: an invalid-shape trial
substitutes the result of index `i − 1` (for `i = 0` this is Python
index `−1`, which wraps to the LAST trial); a valid trial returns its
data with label equal to the `force_label` override when configured,
else the class label obtained by sorting the distinct event codes and
assigning 0..k−1 in sorted order; in particular when `i ≥ 1` is
invalid and `i − 1` is valid, the access returns trial `i − 1`'s
result. -/
theorem epoch_get_substitution (r : EpochRec) (i : Nat) (hi : i < r.epochs.length) :
    (bad_shape (r.epochs.getD i ⟨[], [], 0⟩) = true →
      epoch_get r i = epoch_get r ((i : Int) - 1)) ∧
    (bad_shape (r.epochs.getD i ⟨[], [], 0⟩) = false →
      epoch_get r i = .ok ((r.epochs.getD i ⟨[], [], 0⟩).data,
        r.force_label.getD (class_label r.event_codes (r.epochs.getD i ⟨[], [], 0⟩).code))) ∧
    (1 ≤ i → bad_shape (r.epochs.getD i ⟨[], [], 0⟩) = true →
      bad_shape (r.epochs.getD (i - 1) ⟨[], [], 0⟩) = false →
      epoch_get r i = .ok ((r.epochs.getD (i - 1) ⟨[], [], 0⟩).data,
        r.force_label.getD (class_label r.event_codes
          (r.epochs.getD (i - 1) ⟨[], [], 0⟩).code))) := by
  have hidx : ((if (i : Int) < 0 then (i : Int) + (r.epochs.length : Int)
      else (i : Int)).toNat) = i := by
    rw [if_neg (by omega)]
    omega
  have hbad_step : bad_shape (r.epochs.getD i ⟨[], [], 0⟩) = true →
      epoch_get r i = epoch_get r ((i : Int) - 1) := by
    intro hbad
    rw [epoch_get_step r i (by omega) (by omega), hidx, hbad]
    simp
  refine ⟨hbad_step, ?_, ?_⟩
  · intro hgood
    exact epoch_get_valid r i hi hgood
  · intro h1 hbad hgood
    rw [hbad_step hbad]
    have hcast : ((i : Int) - 1) = ((i - 1 : Nat) : Int) := by omega
    rw [hcast]
    exact epoch_get_valid r (i - 1) (by omega) hgood

def c9_bad : Epoch := ⟨[2, 3], [[9]], 5⟩

def c9_good : Epoch := ⟨[1, 1, 1], [[7]], 5⟩

def c9_rec : EpochRec := ⟨[c9_bad, c9_good], none, [5]⟩

/-- Counterexample to C9 as stated: trial 0 has an invalid shape, and
`get(0)` does not substitute a *previous* valid trial (there is none);
it recurses to Python index −1, which wraps to the LAST trial, and
returns trial 1's data. -/
theorem epoch_wraparound_counterexample :
    bad_shape (c9_rec.epochs.getD 0 ⟨[], [], 0⟩) = true ∧
    epoch_get c9_rec 0 = .ok ([[7]], 0) ∧
    (c9_rec.epochs.getD 1 ⟨[], [], 0⟩).data = [[7]] ∧
    (c9_rec.epochs.getD 0 ⟨[], [], 0⟩).data = [[9]] :=
  ⟨rfl, rfl, rfl, rfl⟩

def c9w_good : Epoch := ⟨[1, 1, 1], [[3]], 5⟩

def c9w_bad : Epoch := ⟨[], [[4]], 5⟩

def c9w_rec : EpochRec := ⟨[c9w_good, c9w_bad], none, [5]⟩

/-- Witness for C9: trial 1 is malformed, trial 0 valid; access to 1
returns trial 0's result. -/
theorem epoch_get_substitution_witness :
    epoch_get c9w_rec 1 = .ok ([[3]], 0) :=
  (epoch_get_substitution c9w_rec 1 (by decide)).2.2 (by decide) (by decide) (by decide)

inductive SplitErr where
  | removeErr (id : String)
  | emptyErr
  | overlapErr (ids : List String)
deriving DecidableEq

/-- One yielded triple of `_generate_splits`, reduced to the subject
ids of the three derived entities (which share the underlying
recordings with the source). -/
structure SplitTriple where
  train : List String
  val : List String
  test : List String
deriving DecidableEq

/-- Python `list.remove(x)`: drop the first occurrence, raise
`ValueError: list.remove(x): x not in list` when absent. -/
def list_remove (x : String) : List String → Except SplitErr (List String)
  | [] => .error (.removeErr x)
  | a :: l => if a = x then .ok l else (list_remove x l).map (fun l2 => a :: l2)

/-- A removal loop of `_generate_splits`
(`for v in val: training.remove(v)`). -/
def remove_all (l : List String) (xs : List String) : Except SplitErr (List String) :=
  xs.foldlM (fun acc x => list_remove x acc) l

/-- Models `_make_like_me(people)` reduced to the derived entity's subject-id
list: one id clones the thinker, several build a new `Dataset`; an
empty list fails (`ConcatDataset` asserts on empty children). -/
def make_like_me_ids (people : List String) : Except SplitErr (List String) :=
  if people.isEmpty then .error .emptyErr else .ok people

/-- One iteration of `Dataset._generate_splits`: remove the validation
ids and then the test ids from the full thinker list, build the three
derived entities, intersect the validation and test subject sets and
raise the overlap error naming the shared ids if non-empty, else yield. -/
def gen_one_split (ths : List String) (vt : List String × List String) :
    Except SplitErr SplitTriple := do
  let t1 ← remove_all ths vt.1
  let t2 ← remove_all t1 vt.2
  let training ← make_like_me_ids t2
  let validating ← make_like_me_ids vt.1
  let testing ← make_like_me_ids vt.2
  let overlap := validating.filter (fun x => decide (x ∈ testing))
  if overlap.isEmpty then .ok ⟨training, validating, testing⟩
  else .error (.overlapErr overlap)

/-- Models `Dataset._generate_splits(validation, testing)`: the generator is
drained into a list; an error raised at any pair aborts the call. -/
def generate_splits (ths : List String) (validation testing : List (List String)) :
    Except SplitErr (List SplitTriple) :=
  (validation.zip testing).mapM (gen_one_split ths)

/-- Models `Dataset.loso()` with neither id argument: test every subject in
collection order; `validation_person_id = [test_person_id[i - 1] ...]`
(Python index −1 wraps, so the first subject validates against the
last). -/
def loso_default (ths : List String) : Except SplitErr (List SplitTriple) :=
  generate_splits ths
    (((List.range ths.length).map
      (fun i => if i = 0 then ths.getLastD "" else ths.getD (i - 1) "")).map (fun v => [v]))
    (ths.map (fun t => [t]))

theorem isEmpty_false_of_ne {α : Type} (l : List α) (h : l ≠ []) : l.isEmpty = false := by
  cases l with
  | nil => exact absurd rfl h
  | cons a t => rfl

theorem list_remove_eq (x : String) (l : List String) :
    list_remove x l = if x ∈ l then .ok (l.erase x) else .error (.removeErr x) := by
  induction l with
  | nil => simp [list_remove]
  | cons a l ih =>
    simp only [list_remove]
    by_cases hax : a = x
    · subst hax
      simp [List.erase_cons_head]
    · rw [if_neg hax, ih]
      by_cases hxl : x ∈ l
      · simp [hxl, List.erase_cons, Except.map, List.mem_cons]
        rw [if_neg hax]
      · have hmem : ¬ x ∈ a :: l := by
          simp [List.mem_cons, hxl]
          intro hxa
          exact absurd hxa.symm hax
        simp [hxl, hmem, Except.map]

theorem remove_all_ok (xs : List String) : ∀ (l l2 : List String), l.Nodup →
    remove_all l xs = .ok l2 → l2.Nodup ∧ ∀ y, y ∈ l2 ↔ y ∈ l ∧ y ∉ xs := by
  induction xs with
  | nil =>
    intro l l2 hnd h
    simp only [remove_all, List.foldlM_nil] at h
    cases h
    exact ⟨hnd, by simp⟩
  | cons x xs ih =>
    intro l l2 hnd h
    simp only [remove_all, List.foldlM_cons] at h
    rw [list_remove_eq] at h
    by_cases hxl : x ∈ l
    · rw [if_pos hxl] at h
      simp only [Bind.bind, Except.bind] at h
      have hstep := ih (l.erase x) l2 (hnd.erase x) h
      refine ⟨hstep.1, ?_⟩
      intro y
      rw [hstep.2 y, List.Nodup.mem_erase_iff hnd, List.mem_cons]
      constructor
      · rintro ⟨⟨hyx, hyl⟩, hyxs⟩
        exact ⟨hyl, by tauto⟩
      · rintro ⟨hyl, hny⟩
        exact ⟨⟨by tauto, hyl⟩, by tauto⟩
    · rw [if_neg hxl] at h
      simp [Bind.bind, Except.bind] at h

theorem remove_all_err_of_missing (xs : List String) : ∀ (l : List String) (x : String),
    x ∈ xs → x ∉ l → ∃ e, remove_all l xs = .error e := by
  induction xs with
  | nil =>
    intro l x hx
    simp at hx
  | cons a xs ih =>
    intro l x hx hxl
    simp only [remove_all, List.foldlM_cons]
    rw [list_remove_eq]
    by_cases hal : a ∈ l
    · rw [if_pos hal]
      simp only [Bind.bind, Except.bind]
      rcases List.mem_cons.mp hx with hxa | hxs
      · subst hxa
        exact absurd hal hxl
      · exact ih (l.erase a) x hxs (fun hmem => hxl (List.mem_of_mem_erase hmem))
    · rw [if_neg hal]
      exact ⟨.removeErr a, rfl⟩

theorem mapM_ok_of_forall {α β ε : Type} (f : α → Except ε β) (g : α → β) :
    ∀ (l : List α), (∀ a ∈ l, f a = .ok (g a)) → l.mapM f = .ok (l.map g) := by
  intro l
  induction l with
  | nil => intro _; rfl
  | cons a l ih =>
    intro h
    rw [List.mapM_cons, h a (by simp), ih (fun b hb => h b (by simp [hb]))]
    rfl

theorem mapM_ok_elim {α β ε : Type} (f : α → Except ε β) (l : List α) :
    ∀ (out : List β), l.mapM f = .ok out → ∀ a ∈ l, ∃ b, f a = .ok b := by
  induction l with
  | nil =>
    intro out _ a ha
    simp at ha
  | cons a l ih =>
    intro out h b hb
    rw [List.mapM_cons] at h
    cases hfa : f a with
    | error e =>
      rw [hfa] at h
      simp [Bind.bind, Except.bind] at h
    | ok y =>
      rw [hfa] at h
      simp only [Bind.bind, Except.bind] at h
      cases hml : l.mapM f with
      | error e =>
        rw [hml] at h
        simp at h
      | ok ys =>
        rcases List.mem_cons.mp hb with rfl | hbl
        · exact ⟨y, hfa⟩
        · exact ih ys hml b hbl

theorem mapM_ok_mem_rev {α β ε : Type} (f : α → Except ε β) (l : List α) :
    ∀ (out : List β), l.mapM f = .ok out → ∀ b ∈ out, ∃ a, a ∈ l ∧ f a = .ok b := by
  induction l with
  | nil =>
    intro out h b hb
    simp only [List.mapM_nil] at h
    cases h
    simp at hb
  | cons a l ih =>
    intro out h b hb
    rw [List.mapM_cons] at h
    cases hfa : f a with
    | error e =>
      rw [hfa] at h
      simp [Bind.bind, Except.bind] at h
    | ok y =>
      rw [hfa] at h
      simp only [Bind.bind, Except.bind] at h
      cases hml : l.mapM f with
      | error e =>
        rw [hml] at h
        simp at h
      | ok ys =>
        rw [hml] at h
        simp only [pure, Except.pure] at h
        cases h
        rcases List.mem_cons.mp hb with rfl | hbys
        · exact ⟨a, by simp, hfa⟩
        · rcases ih ys hml b hbys with ⟨a2, ha2, hfa2⟩
          exact ⟨a2, by simp [ha2], hfa2⟩

/-- A yielded split triple keeps the given validation and test id
lists, has them disjoint, and its training ids are exactly the
thinkers minus validation minus test. -/
theorem gen_one_split_ok_spec (ths : List String) (vt : List String × List String)
    (tr : SplitTriple) (hnd : ths.Nodup) (h : gen_one_split ths vt = .ok tr) :
    tr.val = vt.1 ∧ tr.test = vt.2 ∧ (∀ x ∈ tr.val, x ∉ tr.test) ∧
    (∀ y, y ∈ tr.train ↔ y ∈ ths ∧ y ∉ tr.val ∧ y ∉ tr.test) := by
  unfold gen_one_split at h
  cases h1 : remove_all ths vt.1 with
  | error e =>
    rw [h1] at h
    simp [Bind.bind, Except.bind] at h
  | ok t1 =>
    rw [h1] at h
    simp only [Bind.bind, Except.bind] at h
    cases h2 : remove_all t1 vt.2 with
    | error e =>
      rw [h2] at h
      simp at h
    | ok t2 =>
      rw [h2] at h
      dsimp only at h
      unfold make_like_me_ids at h
      by_cases he2 : t2.isEmpty = true
      · rw [if_pos he2] at h
        simp at h
      · rw [if_neg he2] at h
        by_cases hev : vt.1.isEmpty = true
        · rw [if_pos hev] at h
          simp at h
        · rw [if_neg hev] at h
          by_cases het : vt.2.isEmpty = true
          · rw [if_pos het] at h
            simp at h
          · rw [if_neg het] at h
            dsimp only at h
            by_cases hov : (vt.1.filter (fun x => decide (x ∈ vt.2))).isEmpty = true
            · rw [if_pos hov] at h
              cases h
              have ha := remove_all_ok vt.1 ths t1 hnd h1
              have hb := remove_all_ok vt.2 t1 t2 ha.1 h2
              refine ⟨rfl, rfl, ?_, ?_⟩
              · intro x hx hxt
                have hnil : vt.1.filter (fun x => decide (x ∈ vt.2)) = [] := by
                  cases hf : vt.1.filter (fun x => decide (x ∈ vt.2)) with
                  | nil => rfl
                  | cons c cs =>
                    rw [hf] at hov
                    simp at hov
                have hmem : x ∈ vt.1.filter (fun x => decide (x ∈ vt.2)) :=
                  List.mem_filter.mpr ⟨hx, by simpa using hxt⟩
                rw [hnil] at hmem
                simp at hmem
              · intro y
                rw [hb.2 y, ha.2 y]
                tauto
            · rw [if_neg hov] at h
              simp at h

/-- With distinct thinker ids, a pair whose validation and test lists
share a subject can never yield: the second removal of the shared id
from the training list fails first. -/
theorem gen_one_split_overlap_err (ths : List String) (vt : List String × List String)
    (hnd : ths.Nodup) (x : String) (hxv : x ∈ vt.1) (hxt : x ∈ vt.2) (tr : SplitTriple) :
    gen_one_split ths vt ≠ .ok tr := by
  intro h
  unfold gen_one_split at h
  cases h1 : remove_all ths vt.1 with
  | error e =>
    rw [h1] at h
    simp [Bind.bind, Except.bind] at h
  | ok t1 =>
    rw [h1] at h
    simp only [Bind.bind, Except.bind] at h
    have ht1 := remove_all_ok vt.1 ths t1 hnd h1
    have hxnot : x ∉ t1 := fun hmem => ((ht1.2 x).mp hmem).2 hxv
    rcases remove_all_err_of_missing vt.2 t1 x hxt hxnot with ⟨e, he⟩
    rw [he] at h
    simp at h

/-- C1 (amended).  With distinct thinker ids: every triple of a
successfully drained `_generate_splits` call has disjoint validation
and test subject sets and training = thinkers − validation − test; a
pair with overlapping validation and test sets makes the call abort
with a hard error (the failed second `list.remove` of the shared id —
the dedicated overlap error naming the ids is unreachable). -/
theorem generate_splits_correct (ths : List String) (vals tests : List (List String))
    (hnd : ths.Nodup) :
    (∀ trs, generate_splits ths vals tests = .ok trs →
      ∀ tr ∈ trs, (∀ x ∈ tr.val, x ∉ tr.test) ∧
        (∀ y, y ∈ tr.train ↔ y ∈ ths ∧ y ∉ tr.val ∧ y ∉ tr.test)) ∧
    (∀ val test, (val, test) ∈ vals.zip tests →
      (∃ x, x ∈ val ∧ x ∈ test) → ∃ e, generate_splits ths vals tests = .error e) := by
  constructor
  · intro trs h tr htr
    rcases mapM_ok_mem_rev (gen_one_split ths) (vals.zip tests) trs h tr htr with
      ⟨vt, _, hok⟩
    have hspec := gen_one_split_ok_spec ths vt tr hnd hok
    exact ⟨hspec.2.2.1, hspec.2.2.2⟩
  · rintro val test hmem ⟨x, hxv, hxt⟩
    cases hres : generate_splits ths vals tests with
    | error e => exact ⟨e, rfl⟩
    | ok trs =>
      rcases mapM_ok_elim (gen_one_split ths) (vals.zip tests) trs hres (val, test) hmem with
        ⟨tr, hok⟩
      exact absurd hok (gen_one_split_overlap_err ths (val, test) hnd x hxv hxt tr)

def c1_ths : List String := ["a", "b", "c"]

/-- Witness for C1: three thinkers, validation `["b"]`, test `["c"]`. -/
theorem generate_splits_correct_witness :
    (∀ x ∈ (⟨["a"], ["b"], ["c"]⟩ : SplitTriple).val,
      x ∉ (⟨["a"], ["b"], ["c"]⟩ : SplitTriple).test) ∧
    (∀ y, y ∈ (⟨["a"], ["b"], ["c"]⟩ : SplitTriple).train ↔
      y ∈ c1_ths ∧ y ∉ (⟨["a"], ["b"], ["c"]⟩ : SplitTriple).val ∧
        y ∉ (⟨["a"], ["b"], ["c"]⟩ : SplitTriple).test) :=
  (generate_splits_correct c1_ths [["b"]] [["c"]] (by decide)).1
    [⟨["a"], ["b"], ["c"]⟩] rfl ⟨["a"], ["b"], ["c"]⟩ (by simp)

/-- Counterexample to C1 as stated: when validation and test share
subject "a", the call aborts with the `list.remove` error, not with
the overlap error that names the overlapping ids. -/
theorem generate_splits_overlap_counterexample :
    generate_splits ["a", "b"] [["a"]] [["a"]] = .error (.removeErr "a") ∧
    SplitErr.removeErr "a" ≠ SplitErr.overlapErr ["a"] :=
  ⟨rfl, by decide⟩

theorem getLastD_mem {α : Type} (l : List α) (d : α) (h : l ≠ []) : l.getLastD d ∈ l := by
  induction l generalizing d with
  | nil => exact absurd rfl h
  | cons a l ih =>
    rw [List.getLastD_cons]
    cases hl : l with
    | nil => simp [hl]
    | cons b t =>
      rw [← hl]
      exact List.mem_cons_of_mem a (ih a (by simp [hl]))

theorem getLastD_eq_getD (l : List String) (h : l ≠ []) :
    l.getLastD "" = l.getD (l.length - 1) "" := by
  induction l with
  | nil => exact absurd rfl h
  | cons a l ih =>
    rw [List.getLastD_cons]
    cases hl : l with
    | nil => simp [hl]
    | cons b t =>
      rw [← hl]
      have hne : l ≠ [] := by simp [hl]
      have h1 : l.getLastD a = l.getLastD "" := by
        cases hl2 : l with
        | nil => exact absurd hl2 hne
        | cons c u => rfl
      rw [h1, ih hne]
      have hlen : (a :: l).length - 1 = (l.length - 1) + 1 := by
        simp [hl]
      rw [hlen, List.getD_cons_succ]

theorem nodup_getD_ne (l : List String) (hnd : l.Nodup) (i j : Nat) (hi : i < l.length)
    (hj : j < l.length) (hij : i ≠ j) : l.getD i "" ≠ l.getD j "" := by
  rw [List.getD_eq_getElem _ _ hi, List.getD_eq_getElem _ _ hj]
  intro hEq
  exact hij (List.Nodup.getElem_inj_iff hnd |>.mp hEq)

/-- One LOSO iteration: singleton validation and test ids that are
distinct members of a collection of at least three subjects yield the
expected triple. -/
theorem gen_one_split_singleton (ths : List String) (v t : String) (hnd : ths.Nodup)
    (hv : v ∈ ths) (ht : t ∈ ths) (hvt : v ≠ t) (h3 : 3 ≤ ths.length) :
    gen_one_split ths ([v], [t]) = .ok ⟨(ths.erase v).erase t, [v], [t]⟩ := by
  have h1 : remove_all ths [v] = .ok (ths.erase v) := by
    simp only [remove_all, List.foldlM_cons, List.foldlM_nil, list_remove_eq, if_pos hv,
      Bind.bind, Except.bind]
    rfl
  have ht2 : t ∈ ths.erase v := (List.Nodup.mem_erase_iff hnd).mpr ⟨Ne.symm hvt, ht⟩
  have h2 : remove_all (ths.erase v) [t] = .ok ((ths.erase v).erase t) := by
    simp only [remove_all, List.foldlM_cons, List.foldlM_nil, list_remove_eq, if_pos ht2,
      Bind.bind, Except.bind]
    rfl
  have hlen : ((ths.erase v).erase t).length = ths.length - 2 := by
    rw [List.length_erase_of_mem ht2, List.length_erase_of_mem hv]
    omega
  have hne : (ths.erase v).erase t ≠ [] := by
    intro h0
    rw [h0] at hlen
    simp at hlen
    omega
  unfold gen_one_split
  dsimp only
  rw [h1]
  simp only [Bind.bind, Except.bind]
  rw [h2]
  dsimp only
  unfold make_like_me_ids
  rw [isEmpty_false_of_ne _ hne]
  have hfilter : ([v].filter (fun x => decide (x ∈ [t]))) = [] := by
    simp [hvt]
  simp [hfilter, hvt]

/-- C6 (amended).  Over a collection of at least three subjects with
distinct ids, `loso()` with no explicit ids yields exactly one split
per subject in collection order, each with that subject as the
singleton test set and the previous subject as the singleton
validation set, the first test subject validating against the last
(ring order). -/
theorem loso_default_ring (ths : List String) (hnd : ths.Nodup) (h3 : 3 ≤ ths.length) :
    ∃ trs, loso_default ths = .ok trs ∧ trs.length = ths.length ∧
      ∀ i, i < ths.length →
        (trs.getD i ⟨[], [], []⟩).test = [ths.getD i ""] ∧
        (trs.getD i ⟨[], [], []⟩).val =
          [if i = 0 then ths.getLastD "" else ths.getD (i - 1) ""] := by
  have hthsne : ths ≠ [] := by
    intro h0
    rw [h0] at h3
    simp at h3
  set prf := fun i => if i = 0 then ths.getLastD "" else ths.getD (i - 1) "" with hprf
  set vals := ((List.range ths.length).map prf).map (fun v => [v]) with hvals
  set tests := ths.map (fun t => [t]) with htests
  set g := fun (vt : List String × List String) =>
    SplitTriple.mk ((ths.erase (vt.1.headD "")).erase (vt.2.headD "")) vt.1 vt.2 with hg
  have hlen_zip : (vals.zip tests).length = ths.length := by
    simp [hvals, htests]
  have hzipElem : ∀ i (hi2 : i < (vals.zip tests).length),
      (vals.zip tests)[i] = ([prf i], [ths.getD i ""]) := by
    intro i hi2
    have hi : i < ths.length := by omega
    have hvi : i < vals.length := by simp [hvals]; omega
    have hti : i < tests.length := by simp [htests]; omega
    rw [List.getElem_zip]
    have hv : vals[i] = [prf i] := by
      simp [hvals]
    have ht : tests[i] = [ths.getD i ""] := by
      rw [List.getD_eq_getElem ths "" hi]
      simp [htests]
    rw [Prod.mk.injEq]
    exact ⟨hv, ht⟩
  have hper : ∀ vt ∈ vals.zip tests, gen_one_split ths vt = .ok (g vt) := by
    intro vt hvt
    rcases List.mem_iff_getElem.mp hvt with ⟨i, hi2, hEq⟩
    rw [hzipElem i hi2] at hEq
    subst hEq
    have hi : i < ths.length := by omega
    have hvmem : prf i ∈ ths := by
      rw [hprf]
      by_cases h0 : i = 0
      · simp only [h0, if_pos rfl]
        exact getLastD_mem ths "" hthsne
      · simp only [if_neg h0]
        exact getD_mem_of_lt ths (i - 1) "" (by omega)
    have htmem : ths.getD i "" ∈ ths := getD_mem_of_lt ths i "" hi
    have hvtne : prf i ≠ ths.getD i "" := by
      rw [hprf]
      by_cases h0 : i = 0
      · simp only [h0, if_pos rfl]
        rw [getLastD_eq_getD ths hthsne]
        exact nodup_getD_ne ths hnd (ths.length - 1) 0 (by omega) (by omega) (by omega)
      · simp only [if_neg h0]
        exact nodup_getD_ne ths hnd (i - 1) i (by omega) (by omega) (by omega)
    have := gen_one_split_singleton ths (prf i) (ths.getD i "") hnd hvmem htmem hvtne h3
    rw [this]
    rfl
  have hmain : generate_splits ths vals tests = .ok ((vals.zip tests).map g) :=
    mapM_ok_of_forall (gen_one_split ths) g (vals.zip tests) hper
  refine ⟨(vals.zip tests).map g, hmain, by simp [hlen_zip], ?_⟩
  intro i hi
  have hzi : i < (vals.zip tests).length := by omega
  rw [getD_map_lt (vals.zip tests) g i ⟨[], [], []⟩ ([], []) hzi]
  have hgd : (vals.zip tests).getD i ([], []) = ([prf i], [ths.getD i ""]) := by
    rw [List.getD_eq_getElem _ _ hzi]
    exact hzipElem i hzi
  rw [hgd]
  exact ⟨rfl, rfl⟩

def c6_ths : List String := ["a", "b", "c"]

/-- Witness for C6 over three subjects. -/
theorem loso_default_ring_witness :
    ∃ trs, loso_default c6_ths = .ok trs ∧ trs.length = c6_ths.length ∧
      ∀ i, i < c6_ths.length →
        (trs.getD i ⟨[], [], []⟩).test = [c6_ths.getD i ""] ∧
        (trs.getD i ⟨[], [], []⟩).val =
          [if i = 0 then c6_ths.getLastD "" else c6_ths.getD (i - 1) ""] :=
  loso_default_ring c6_ths (by decide) (by decide)

/-- Counterexample to C6 as stated: over one subject the generation
aborts with the failed `list.remove` (validation = test = the sole
subject); over two subjects it aborts because the training remainder
is empty.  Neither collection yields `n` splits. -/
theorem loso_small_counterexample :
    loso_default ["a"] = .error (.removeErr "a") ∧
    loso_default ["a", "b"] = .error .emptyErr :=
  ⟨rfl, rfl⟩

end DN3
